import Mathlib

/-!
Verification of the Aegis engine core (src/cpp) against its specification.

Shallow embedding conventions:
* C strings and text buffers are `List Char`; `strncpy(dst, src, n)` followed
  by NUL-termination is `List.take n`.
* `int64_t` amounts are `ℤ`; every claim that exercises them stays inside the
  `int64` range, where the C arithmetic and `ℤ` agree (signed overflow would be
  undefined behaviour in the source).
* `uint64_t` timestamps are `ℕ` with explicit `% 2^64` where the source mixes
  signed/unsigned subtraction.
* IEEE-754 `float` model parameters and scores are modelled as exact rationals
  `ℚ`; decimal float literals of the source (`0.8f`, `1.0f`, ...) are read as
  the corresponding rationals.  The C cast `(int64_t)x` of a float is
  truncation toward zero (`ratTrunc`).
* The XML tree produced by pugixml is the inductive `XNode`; a failed
  `load_buffer` is `none`.
-/

namespace Aegis

/-! ## Amount parsing (hft_core.hpp, `IsoParser::parse`, lines 150-184) -/

/-- The digit test of the source loops: `*p >= '0' && *p <= '9'`. -/
def isDigitChar (c : Char) : Bool := '0' ≤ c && c ≤ '9'

/-- The digit value `*p - '0'` as an integer. -/
def digitVal (c : Char) : ℤ := (c.toNat - '0'.toNat : ℕ)

/-- The integral-part loop: `while (*p >= '0' && *p <= '9') integrals = integrals*10 + (*p - '0')`.
Returns the accumulator and the unconsumed remainder of the string. -/
def parseIntegrals : List Char → ℤ → ℤ × List Char
  | [], acc => (acc, [])
  | c :: p, acc =>
    if isDigitChar c then parseIntegrals p (acc * 10 + digitVal c) else (acc, c :: p)

/-- The fractional-part loop: `while (*p >= '0' && *p <= '9' && digits < 6) ...`.
Returns the accumulator and the number of digits consumed. -/
def parseFractionals : List Char → ℤ → ℕ → ℤ × ℕ
  | [], acc, n => (acc, n)
  | c :: p, acc, n =>
    if isDigitChar c ∧ n < 6 then parseFractionals p (acc * 10 + digitVal c) (n + 1)
    else (acc, n)

/-- The padding loop `while (digits < 6) { fractionals *= 10; digits++; }`. -/
def padTo6 (acc : ℤ) (n : ℕ) : ℤ := acc * 10 ^ (6 - n)

/-- The amount-parsing tail of `IsoParser::parse` (hft_core.hpp lines 153-182):
optional leading `-`, integral digits, optional `.` plus at most six fractional
digits (excess characters are left unconsumed), zero-padding to micros. -/
def amtParse (s : List Char) : ℤ :=
  let signp : ℤ × List Char :=
    if s.head? = some '-' then (-1, s.tail) else (1, s)
  let ip : ℤ × List Char := parseIntegrals signp.2 0
  let fractionals : ℤ :=
    if ip.2.head? = some '.' then
      padTo6 (parseFractionals ip.2.tail 0 0).1 (parseFractionals ip.2.tail 0 0).2
    else 0
  signp.1 * (ip.1 * 1000000 + fractionals)

/-- Value of a digit string read in base 10 (used to state properties of the loops). -/
def digitsVal (ds : List Char) : ℤ := ds.foldl (fun acc c => acc * 10 + digitVal c) 0

/-! ## XML model and `IsoParser::parse` (hft_core.hpp lines 96-188) -/

/-- A pugixml element: tag, attributes, text content and child elements in
document order. -/
inductive XNode where
  | elem (tag : String) (attrs : List (String × List Char)) (text : List Char)
      (children : List XNode)

def XNode.tag : XNode → String
  | .elem t _ _ _ => t

def XNode.attrs : XNode → List (String × List Char)
  | .elem _ a _ _ => a

def XNode.text : XNode → List Char
  | .elem _ _ s _ => s

def XNode.children : XNode → List XNode
  | .elem _ _ _ c => c

/-- pugixml `node.child(name)`: the first child element with the given tag
(an empty handle becomes `none`). -/
def XNode.child (n : XNode) (name : String) : Option XNode :=
  n.children.find? (fun c => c.tag == name)

/-- pugixml `node.attribute(name).value()`: first matching attribute's value,
the empty string if the attribute is absent. -/
def XNode.attr (n : XNode) (name : String) : List Char :=
  match n.attrs.find? (fun a => a.1 == name) with
  | some a => a.2
  | none => []

/-- Record `PaymentData` (hft_core.hpp lines 85-92).  The fixed `char` arrays hold the
NUL-terminated strings modelled here; `amount` is the `int64_t` micros value. -/
structure PaymentData where
  debtor_name : List Char
  creditor_name : List Char
  currency : List Char
  uetr : List Char
  amount : ℤ
  valid_schema : Bool
deriving DecidableEq

/-- Root selection (hft_core.hpp lines 102-104): `Document` or, failing that,
the first child of the buffer. -/
def rootNode (d : XNode) : Option XNode :=
  match d.child "Document" with
  | some r => some r
  | none => d.children.head?

/-- Lines 106-110: `CstmrCdtTrfinitn`, else `FIToFICdtTrf`. -/
def cctNode (root : XNode) : Option XNode :=
  match root.child "CstmrCdtTrfinitn" with
  | some c => some c
  | none => root.child "FIToFICdtTrf"

/-- Lines 112-114: `PmtInf`, else `CdtTrfTxInf`. -/
def txnNode (cct : XNode) : Option XNode :=
  match cct.child "PmtInf" with
  | some p => some p
  | none => cct.child "CdtTrfTxInf"

/-- Lines 118-120: `UETR`, else `EndToEndId`, under `PmtId`. -/
def uetrNodeOf (pmtId : XNode) : Option XNode :=
  match pmtId.child "UETR" with
  | some u => some u
  | none => pmtId.child "EndToEndId"

/-- Function `IsoParser::parse(xml, len, out)` (hft_core.hpp lines 96-188).  The input is
the pugixml parse result (`none` when `load_buffer` fails); the function
returns the `bool` result together with the caller-provided record as left
behind by the writes the source performs before returning. -/
def IsoParser.parse (doc : Option XNode) (out : PaymentData) : Bool × PaymentData :=
  match doc with
  | none => (false, out)
  | some d =>
    match rootNode d with
    | none => (false, out)
    | some root =>
      match cctNode root with
      | none => (false, out)
      | some cct =>
        match txnNode cct with
        | none => (false, out)
        | some pmtInf =>
          match pmtInf.child "PmtId" with
          | none => (false, out)
          | some pmtId =>
            match uetrNodeOf pmtId with
            | none => (false, out)
            | some uetrNode =>
              let out1 := { out with uetr := uetrNode.text.take 36 }
              match (pmtInf.child "Dbtr").bind (fun n => n.child "Nm"),
                    (pmtInf.child "Cdtr").bind (fun n => n.child "Nm") with
              | some dbtrNm, some cdtrNm =>
                let out2 := { out1 with
                  debtor_name := dbtrNm.text.take 63,
                  creditor_name := cdtrNm.text.take 63 }
                match (pmtInf.child "Amt").bind (fun n => n.child "InstdAmt") with
                | none => (false, out2)
                | some amtNode =>
                  let ccy := amtNode.attr "Ccy"
                  if ccy.length ≠ 3 then (false, out2)
                  else if ccy ≠ "EUR".data ∧ ccy ≠ "USD".data ∧ ccy ≠ "GBP".data then
                    (false, out2)
                  else
                    let out3 := { out2 with currency := ccy.take 3 }
                    let amtStr := amtNode.text
                    if amtStr = [] then (false, out3)
                    else
                      let amount := amtParse amtStr
                      let out4 := { out3 with amount := amount }
                      if amount ≤ 0 then (false, out4)
                      else (true, { out4 with valid_schema := true })
              | _, _ => (false, out1)

/-! ## Risk engine (risk_engine.hpp) -/

/-- Struct `ModelWeights` (risk_engine.hpp lines 32-38); the `float` fields are
modelled as exact rationals. -/
structure ModelWeights where
  velocity_weight : ℚ
  structuring_weight : ℚ
  velocity_threshold : ℚ
  structuring_threshold : ℚ
  baseline : ℚ
deriving DecidableEq

/-- The C cast `(int64_t)q`: truncation toward zero. -/
def ratTrunc (q : ℚ) : ℤ := if 0 ≤ q then ⌊q⌋ else -⌊-q⌋

/-- Struct `FastRiskEngine::RiskResult` (risk_engine.hpp lines 80-83). -/
structure RiskResult where
  score : ℚ
  is_blocked : Bool
deriving DecidableEq

/-- The wait-free inference tail of `FastRiskEngine::evaluate`
(risk_engine.hpp lines 141-158): `v` is the velocity returned by the state
update, `amount` the payment's micros. -/
def inferenceScore (w : ModelWeights) (v : ℚ) (amount : ℤ) : RiskResult :=
  let velocity_score : ℚ :=
    if v > w.velocity_threshold * 2 then 1 else v / (w.velocity_threshold * 2)
  let threshold_micros : ℤ := ratTrunc (w.structuring_threshold * 1000000)
  let limit_micros : ℤ := 10000 * 1000000
  let structuring_score : ℚ :=
    if threshold_micros ≤ amount ∧ amount < limit_micros then 1 else 0
  let total_risk : ℚ :=
    w.baseline + velocity_score * w.velocity_weight + structuring_score * w.structuring_weight
  let total_risk := if total_risk > 1 then 1 else total_risk
  ⟨total_risk, decide (total_risk > 4/5)⟩

/-- Struct `EntityState` (hft_core.hpp lines 38-42); the atomics are plain fields in
the sequential model (all accesses happen under the shard lock). -/
structure EntityState where
  last_seen_timestamp : ℕ
  velocity_accumulator : ℚ
  structuring_score : ℚ
deriving DecidableEq

/-- The per-entity update step of `FastRiskEngine::evaluate`
(risk_engine.hpp lines 126-136): window decay after more than 1 s, then the
increment.  `now_ns - last_seen` mixes `long` and `uint64_t`, so the
subtraction is performed modulo `2^64`.  Returns the updated state and the
velocity `v` handed to the inference. -/
def velocityUpdate (st : EntityState) (now : ℕ) : EntityState × ℚ :=
  let elapsed := (now + 2 ^ 64 - st.last_seen_timestamp) % 2 ^ 64
  let vel0 : ℚ := if elapsed > 1000000000 then 0 else st.velocity_accumulator
  let v := vel0 + 1
  ({ last_seen_timestamp := now, velocity_accumulator := v,
     structuring_score := st.structuring_score }, v)

/-! ## SPSC ring buffer (hft_core.hpp lines 45-82) -/

/-- Class `LockFreeRingBuffer<T, Size>`: head, tail and the slot array (a total
function in the model).  The source asserts `Size` is a power of two and masks
indices with `Size - 1`. -/
structure LockFreeRingBuffer (α : Type) (Size : ℕ) where
  head : ℕ
  tail : ℕ
  buffer : ℕ → α

namespace LockFreeRingBuffer

/-- Method `push` (hft_core.hpp lines 53-64): fails when the ring is full, otherwise
writes the slot at `head` and advances `head` by one, masked. -/
def push {α : Type} {Size : ℕ} (r : LockFreeRingBuffer α Size) (item : α) :
    Bool × LockFreeRingBuffer α Size :=
  let next_head := (r.head + 1) &&& (Size - 1)
  if next_head = r.tail then (false, r)
  else
    (true,
     { head := next_head, tail := r.tail,
       buffer := fun i => if i = r.head then item else r.buffer i })

/-- Method `pop` (hft_core.hpp lines 66-75): fails when the ring is empty, otherwise
returns the slot at `tail` and advances `tail` by one, masked. -/
def pop {α : Type} {Size : ℕ} (r : LockFreeRingBuffer α Size) :
    Option (α × LockFreeRingBuffer α Size) :=
  if r.tail = r.head then none
  else
    some (r.buffer r.tail,
      { head := r.head, tail := (r.tail + 1) &&& (Size - 1), buffer := r.buffer })

end LockFreeRingBuffer

/-- A freshly constructed ring: `head{0}`, `tail{0}`, arbitrary slot contents. -/
def mkRing {α : Type} (Size : ℕ) (b : ℕ → α) : LockFreeRingBuffer α Size :=
  ⟨0, 0, b⟩

/-- Push a whole list, requiring every push to succeed (`none` as soon as one
push reports full). -/
def pushAllSucc {α : Type} {Size : ℕ} :
    LockFreeRingBuffer α Size → List α → Option (LockFreeRingBuffer α Size)
  | r, [] => some r
  | r, x :: xs =>
    match r.push x with
    | (true, r') => pushAllSucc r' xs
    | (false, _) => none

/-- One operation of the single producer (push) or single consumer (pop). -/
inductive RingOp (α : Type) where
  | push (x : α)
  | pop

/-- A ring together with the history of successfully pushed and popped values. -/
structure RingTrace (α : Type) (Size : ℕ) where
  ring : LockFreeRingBuffer α Size
  pushed : List α
  popped : List α

/-- Execute one operation against the ring, recording successful transfers;
failed operations leave the ring untouched (the source returns `false`). -/
def stepOp {α : Type} {Size : ℕ} (t : RingTrace α Size) : RingOp α → RingTrace α Size
  | .push x =>
    match t.ring.push x with
    | (true, r') => { ring := r', pushed := t.pushed ++ [x], popped := t.popped }
    | (false, _) => t
  | .pop =>
    match t.ring.pop with
    | some (v, r') => { ring := r', pushed := t.pushed, popped := t.popped ++ [v] }
    | none => t

/-- Run a sequence of operations from a trace. -/
def runOps {α : Type} {Size : ℕ} (t : RingTrace α Size) (ops : List (RingOp α)) :
    RingTrace α Size :=
  ops.foldl stepOp t

/-- The trace of a freshly constructed ring. -/
def initTrace {α : Type} (Size : ℕ) (b : ℕ → α) : RingTrace α Size :=
  { ring := mkRing Size b, pushed := [], popped := [] }

/-! ## Alert formatting and emission (main.cpp lines 96-111) -/

/-- Format `%06lld` for the (non-negative) fractional micros: decimal digits
left-padded with `0` to width six. -/
def pad6 (n : ℕ) : List Char :=
  let s := (toString n).data
  List.replicate (6 - s.length) '0' ++ s

/-- The JSON alert line written by `snprintf` in `risk_worker`
(main.cpp lines 99-103); `/` and `%` on `int64_t` are C truncated
division/remainder (`Int.tdiv` / `Int.tmod`). -/
def alertLine (debtor : List Char) (amount : ℤ) (uetr : List Char) : List Char :=
  "\x7b \"debtor\": \"".data ++ debtor
    ++ "\", \"amount\": ".data ++ (toString (amount.tdiv 1000000)).data
    ++ ".".data ++ pad6 (amount.tmod 1000000).natAbs
    ++ ", \"uetr\": \"".data ++ uetr
    ++ "\" \x7d".data

/-- The alert-emission step of `risk_worker` (main.cpp lines 96-111), given the
score and the payment fields: alerts are attempted only for `score > 0.5`;
`snprintf` reports the full formatted length `len`, the alert record is used
only when `0 < len < 512`, and only a failing ring push increments the drops
counter.  Returns the updated egress ring and drops counter. -/
def alertStep (score : ℚ) (debtor : List Char) (amount : ℤ) (uetr : List Char)
    (ring : LockFreeRingBuffer (List Char) 4096) (drops : ℕ) :
    LockFreeRingBuffer (List Char) 4096 × ℕ :=
  if score > 1/2 then
    let line := alertLine debtor amount uetr
    let len := line.length
    if 0 < len ∧ len < 512 then
      match ring.push line with
      | (true, r') => (r', drops)
      | (false, _) => (ring, drops + 1)
    else (ring, drops)
  else (ring, drops)

/-! ## Spec-side definitions (written from the claims, for refinement) -/

/-- The scoring formula exactly as claim C1 states it: `min` saturation,
`round`ed structuring threshold, clamp to at most 1, blocked above 0.8. -/
def specScoreClaim (w : ModelWeights) (v : ℚ) (amount : ℤ) : RiskResult :=
  let velocity_score : ℚ := min 1 (v / (2 * w.velocity_threshold))
  let threshold_micros : ℤ := round (w.structuring_threshold * 1000000)
  let structuring_score : ℚ :=
    if threshold_micros ≤ amount ∧ amount < 10000 * 1000000 then 1 else 0
  let total : ℚ :=
    min 1 (w.baseline + w.velocity_weight * velocity_score
      + w.structuring_weight * structuring_score)
  ⟨total, decide (total > 4/5)⟩

/-- The amended C1 formula: identical to `specScoreClaim` except that the
structuring threshold is truncated toward zero (the C cast), not rounded. -/
def specScoreTrunc (w : ModelWeights) (v : ℚ) (amount : ℤ) : RiskResult :=
  let velocity_score : ℚ := min 1 (v / (2 * w.velocity_threshold))
  let threshold_micros : ℤ := ratTrunc (w.structuring_threshold * 1000000)
  let structuring_score : ℚ :=
    if threshold_micros ≤ amount ∧ amount < 10000 * 1000000 then 1 else 0
  let total : ℚ :=
    min 1 (w.baseline + w.velocity_weight * velocity_score
      + w.structuring_weight * structuring_score)
  ⟨total, decide (total > 4/5)⟩

/-- Spec §4.A navigation to the transaction node: root is `Document` or the
outermost element, then `CstmrCdtTrfinitn` or `FIToFICdtTrf`, then `PmtInf` or
`CdtTrfTxInf`. -/
def specTxn (d : XNode) : Option XNode :=
  (rootNode d).bind fun root => (cctNode root).bind fun cct => txnNode cct

/-- Currency whitelist of the claim: exactly 3 bytes and one of EUR/USD/GBP. -/
def specCcyOk (ccy : List Char) : Bool :=
  ccy == "EUR".data || ccy == "USD".data || ccy == "GBP".data

/-- Claim C6's failure condition: malformed XML, a missing required field
(root path, PmtId with UETR-or-EndToEndId, Dbtr/Nm, Cdtr/Nm, Amt/InstdAmt),
a currency outside the whitelist, or a parsed amount `≤ 0`. -/
def specDecodeFail (doc : Option XNode) : Bool :=
  match doc with
  | none => true
  | some d =>
    match specTxn d with
    | none => true
    | some txn =>
      ((txn.child "PmtId").bind uetrNodeOf).isNone
      || ((txn.child "Dbtr").bind fun n => n.child "Nm").isNone
      || ((txn.child "Cdtr").bind fun n => n.child "Nm").isNone
      || match (txn.child "Amt").bind fun n => n.child "InstdAmt" with
         | none => true
         | some amtNode =>
           !specCcyOk (amtNode.attr "Ccy") || decide (amtParse amtNode.text ≤ 0)

/-- The invariant tying a ring trace to its push/pop histories: `P`/`Q` count
the successful pushes/pops, `head`/`tail` are their residues, at most `N−1`
items are outstanding, the popped history is a prefix of the pushed one, and
the outstanding pushed values sit in the buffer slots `j mod N`. -/
def RingInv {α : Type} {k : ℕ} (t : RingTrace α (2 ^ k)) : Prop :=
  t.popped.length ≤ t.pushed.length ∧
  t.pushed.length - t.popped.length < 2 ^ k ∧
  t.ring.head = t.pushed.length % 2 ^ k ∧
  t.ring.tail = t.popped.length % 2 ^ k ∧
  t.popped = t.pushed.take t.popped.length ∧
  ∀ j, t.popped.length ≤ j → j < t.pushed.length →
    some (t.ring.buffer (j % 2 ^ k)) = t.pushed[j]?

/-- The rational magnitude denoted by the decimal string `⟨integral digits⟩ '.'
⟨fractional digits⟩` (the claim's "original magnitude"). -/
def decVal (i f : List Char) : ℚ :=
  (digitsVal i : ℚ) + (digitsVal f : ℚ) / 10 ^ f.length

/-- The magnitude denoted by the alert format for a micros value `m`:
`m / 10⁶` (C division), a dot, then `abs(m mod 10⁶)` left-padded to six
digits, i.e. the rational `tdiv + |tmod| / 10⁶`. -/
def alertMagnitude (m : ℤ) : ℚ :=
  ((m.tdiv 1000000 : ℤ) : ℚ) + ((m.tmod 1000000).natAbs : ℚ) / 1000000

/-- An all-zero caller-provided record (the tests `memset` it to zero). -/
def pd0 : PaymentData := ⟨[], [], [], [], 0, false⟩

/-- A well-formed pacs.008-style document whose amount text carries trailing
garbage after the numeric prefix. -/
def exDocGarbage : XNode :=
  .elem "" [] [] [
    .elem "Document" [] [] [
      .elem "CstmrCdtTrfinitn" [] [] [
        .elem "PmtInf" [] [] [
          .elem "PmtId" [] [] [.elem "UETR" [] "U-1".data []],
          .elem "Dbtr" [] [] [.elem "Nm" [] "Alice".data []],
          .elem "Cdtr" [] [] [.elem "Nm" [] "Bob".data []],
          .elem "Amt" [] [] [.elem "InstdAmt" [("Ccy", "EUR".data)] "12.34abc".data []]]]]]

/-- A document with a `PmtId/UETR` but no `Dbtr`: the decoder writes the UETR
into the caller's record and only then fails. -/
def exDocNoDbtr : XNode :=
  .elem "" [] [] [
    .elem "Document" [] [] [
      .elem "CstmrCdtTrfinitn" [] [] [
        .elem "PmtInf" [] [] [
          .elem "PmtId" [] [] [.elem "UETR" [] "XYZ".data []],
          .elem "Cdtr" [] [] [.elem "Nm" [] "Bob".data []],
          .elem "Amt" [] [] [.elem "InstdAmt" [("Ccy", "EUR".data)] "10.00".data []]]]]]

/-- A fully valid document (the unit tests' 1500.00 EUR pacs.008). -/
def exDocValid : XNode :=
  .elem "" [] [] [
    .elem "Document" [] [] [
      .elem "CstmrCdtTrfinitn" [] [] [
        .elem "PmtInf" [] [] [
          .elem "PmtId" [] []
            [.elem "UETR" [] "550e8400-e29b-41d4-a716-446655440000".data []],
          .elem "Dbtr" [] [] [.elem "Nm" [] "Alice Smith".data []],
          .elem "Cdtr" [] [] [.elem "Nm" [] "Bob Jones".data []],
          .elem "Amt" [] [] [.elem "InstdAmt" [("Ccy", "EUR".data)] "1500.00".data []]]]]]

/-- A 600-byte debtor name, long enough to overflow the 512-byte alert record. -/
def longDebtor : List Char := List.replicate 600 'a'

/-- A fresh egress ring holding empty alert payloads. -/
def emptyIpcRing : LockFreeRingBuffer (List Char) 4096 := mkRing 4096 (fun _ => [])

/-! ## Scoring theorems (C1, C7, C8) -/

/-- The clamp of the source, `if (total_risk > 1.0f) total_risk = 1.0f`, is `min 1`. -/
theorem clamp_eq_min (t : ℚ) : (if t > 1 then (1 : ℚ) else t) = min 1 t := by
  rcases le_or_lt t 1 with h | h
  · rw [if_neg (not_lt.mpr h), min_eq_right h]
  · rw [if_pos h, min_eq_left h.le]

/-- A clamped non-negative total lies in `[0, 1]`. -/
theorem clamp_mem_unit (t : ℚ) (h : 0 ≤ t) :
    0 ≤ (if t > 1 then (1 : ℚ) else t) ∧ (if t > 1 then (1 : ℚ) else t) ≤ 1 := by
  by_cases h1 : t > 1
  · rw [if_pos h1]; exact ⟨zero_le_one, le_refl 1⟩
  · rw [if_neg h1]; exact ⟨h, not_lt.mp h1⟩

/-- Claim C1 (amended). For every amount, velocity value `v` and weight set `w`
with a positive velocity threshold, the inference computes
`velocity_score = min(1, v / (2·velocity_threshold))`,
`structuring_score = 1` iff `threshold_micros ≤ amount < 10000·10⁶` with
`threshold_micros` the float product `structuring_threshold × 10⁶` *truncated
toward zero* (the C cast, not `round`), `total = baseline + vw·vs + sw·ss`
clamped to at most 1, and `blocked ↔ total > 0.8`. -/
theorem scoring_formula_trunc (w : ModelWeights) (v : ℚ) (amount : ℤ)
    (hvt : 0 < w.velocity_threshold) :
    inferenceScore w v amount = specScoreTrunc w v amount := by
  have h2 : (0 : ℚ) < w.velocity_threshold * 2 := by linarith
  have hvs : (if v > w.velocity_threshold * 2 then (1 : ℚ)
      else v / (w.velocity_threshold * 2)) = min 1 (v / (2 * w.velocity_threshold)) := by
    rw [mul_comm 2 w.velocity_threshold]
    rcases le_or_lt v (w.velocity_threshold * 2) with h | h
    · rw [if_neg (not_lt.mpr h), min_eq_right ((div_le_one h2).mpr h)]
    · rw [if_pos h, min_eq_left (le_of_lt ((one_lt_div h2).mpr h))]
  have hAB : w.baseline
        + min 1 (v / (2 * w.velocity_threshold)) * w.velocity_weight
        + (if ratTrunc (w.structuring_threshold * 1000000) ≤ amount
            ∧ amount < 10000 * 1000000 then (1 : ℚ) else 0) * w.structuring_weight
      = w.baseline
        + w.velocity_weight * min 1 (v / (2 * w.velocity_threshold))
        + w.structuring_weight * (if ratTrunc (w.structuring_threshold * 1000000) ≤ amount
            ∧ amount < 10000 * 1000000 then (1 : ℚ) else 0) := by
    ring
  simp only [inferenceScore, specScoreTrunc, hvs, clamp_eq_min, hAB]

/-- Witness for `scoring_formula_trunc` at the constructor's default weight set
`{0.6, 0.25, 5, 9000, 0.05}`, first observation of a 1500.00 payment. -/
theorem scoring_formula_trunc_witness :
    inferenceScore ⟨3/5, 1/4, 5, 9000, 1/20⟩ 1 1500000000
      = specScoreTrunc ⟨3/5, 1/4, 5, 9000, 1/20⟩ 1 1500000000 :=
  scoring_formula_trunc ⟨3/5, 1/4, 5, 9000, 1/20⟩ 1 1500000000 (by norm_num)

/-- Claim C1 (counterexample). With weights `{vw=0, sw=1, vt=1, st=3/256, b=0}`
(the threshold `3/256` and its micros product `11718.75` are exact binary32
values, so the float code computes exactly this) and amount `11718` micros, the
engine truncates `11718.75` to `11718` and scores `1`, while the claim's
`round` gives `11719` and scores `0`. -/
theorem scoring_round_counterexample :
    inferenceScore ⟨0, 1, 1, 3/256, 0⟩ 1 11718
      ≠ specScoreClaim ⟨0, 1, 1, 3/256, 0⟩ 1 11718 := by
  have htr : ratTrunc ((3/256 : ℚ) * 1000000) = 11718 := by
    rw [ratTrunc, if_pos (by norm_num)]
    rw [show ((3 : ℚ)/256 * 1000000) = 46875/4 by norm_num]
    rw [Int.floor_eq_iff]
    constructor <;> norm_num
  have hro : round ((3/256 : ℚ) * 1000000) = 11719 := by
    rw [round_eq]
    rw [show ((3 : ℚ)/256 * 1000000 + 1/2) = 46877/4 by norm_num]
    rw [Int.floor_eq_iff]
    constructor <;> norm_num
  have hl : (inferenceScore ⟨0, 1, 1, 3/256, 0⟩ 1 11718).score = 1 := by
    simp only [inferenceScore, htr]
    norm_num
  have hr : (specScoreClaim ⟨0, 1, 1, 3/256, 0⟩ 1 11718).score = 0 := by
    simp only [specScoreClaim, hro]
    norm_num
  intro h
  rw [h, hr] at hl
  norm_num at hl

/-- Claim C7. After more than one second (10⁹ ns) of inactivity the velocity
accumulator is reset before the increment, so the velocity used for that
observation is 1; otherwise it is the old accumulator plus 1, with no reset.
`last_seen` is always refreshed to `now`. -/
theorem velocity_decay (st : EntityState) (now : ℕ)
    (hle : st.last_seen_timestamp ≤ now) (hnow : now < 2 ^ 64) :
    (velocityUpdate st now).1.last_seen_timestamp = now ∧
    (1000000000 < now - st.last_seen_timestamp →
      (velocityUpdate st now).2 = 1 ∧
      (velocityUpdate st now).1.velocity_accumulator = 1) ∧
    (now - st.last_seen_timestamp ≤ 1000000000 →
      (velocityUpdate st now).2 = st.velocity_accumulator + 1 ∧
      (velocityUpdate st now).1.velocity_accumulator = st.velocity_accumulator + 1) := by
  have helapsed : (now + 2 ^ 64 - st.last_seen_timestamp) % 2 ^ 64
      = now - st.last_seen_timestamp := by
    have hp : (2 : ℕ) ^ 64 = 18446744073709551616 := by norm_num
    omega
  simp only [velocityUpdate, helapsed]
  refine ⟨by simp, fun h => ?_, fun h => ?_⟩
  · rw [if_pos h]
    exact ⟨zero_add 1, zero_add 1⟩
  · rw [if_neg (not_lt.mpr h)]
    simp

/-- Witness for `velocity_decay`: an entity last seen at t = 0 with accumulated
velocity 5, observed again at t = 2 s, is reset and scores velocity 1. -/
theorem velocity_decay_witness :
    (velocityUpdate ⟨0, 5, 0⟩ 2000000000).2 = 1 :=
  ((velocity_decay ⟨0, 5, 0⟩ 2000000000 (by norm_num) (by norm_num)).2.1 (by norm_num)).1

/-- Claim C8. For non-negative weights and baseline, a positive velocity
threshold and a non-negative velocity (all of which hold for both weight sets
the source ever installs), the returned score lies in `[0, 1]`. -/
theorem score_in_unit_interval (w : ModelWeights) (v : ℚ) (amount : ℤ)
    (hvw : 0 ≤ w.velocity_weight) (hsw : 0 ≤ w.structuring_weight)
    (hb : 0 ≤ w.baseline) (hvt : 0 < w.velocity_threshold) (hv : 0 ≤ v) :
    0 ≤ (inferenceScore w v amount).score ∧ (inferenceScore w v amount).score ≤ 1 := by
  have h2 : (0 : ℚ) < w.velocity_threshold * 2 := by linarith
  have hvs0 : 0 ≤ (if v > w.velocity_threshold * 2 then (1 : ℚ)
      else v / (w.velocity_threshold * 2)) := by
    by_cases h : v > w.velocity_threshold * 2
    · rw [if_pos h]; norm_num
    · rw [if_neg h]; exact div_nonneg hv h2.le
  have hss0 : 0 ≤ (if ratTrunc (w.structuring_threshold * 1000000) ≤ amount
      ∧ amount < 10000 * 1000000 then (1 : ℚ) else 0) := by
    split <;> norm_num
  have htot : 0 ≤ w.baseline
      + (if v > w.velocity_threshold * 2 then (1 : ℚ)
          else v / (w.velocity_threshold * 2)) * w.velocity_weight
      + (if ratTrunc (w.structuring_threshold * 1000000) ≤ amount
          ∧ amount < 10000 * 1000000 then (1 : ℚ) else 0) * w.structuring_weight :=
    add_nonneg (add_nonneg hb (mul_nonneg hvs0 hvw)) (mul_nonneg hss0 hsw)
  simp only [inferenceScore]
  exact clamp_mem_unit _ htot

/-- Witness for `score_in_unit_interval` at the default weight set and a first
observation of a 1500.00 payment. -/
theorem score_in_unit_interval_witness :
    0 ≤ (inferenceScore ⟨3/5, 1/4, 5, 9000, 1/20⟩ 1 1500000000).score ∧
      (inferenceScore ⟨3/5, 1/4, 5, 9000, 1/20⟩ 1 1500000000).score ≤ 1 :=
  score_in_unit_interval ⟨3/5, 1/4, 5, 9000, 1/20⟩ 1 1500000000
    (by norm_num) (by norm_num) (by norm_num) (by norm_num) (by norm_num)

/-! ## Ring buffer theorems (C4, C5) -/

/-- The index mask of the source, `x & (Size - 1)`, is `x mod Size` for the
power-of-two sizes the `static_assert` admits. -/
theorem and_mask_eq_mod (k x : ℕ) : x &&& (2 ^ k - 1) = x % 2 ^ k :=
  Nat.and_pow_two_sub_one_eq_mod x k

theorem push_eq_of_full {α : Type} {k : ℕ} (r : LockFreeRingBuffer α (2 ^ k)) (x : α)
    (h : (r.head + 1) % 2 ^ k = r.tail) : r.push x = (false, r) := by
  unfold LockFreeRingBuffer.push
  rw [and_mask_eq_mod, if_pos h]

theorem push_eq_of_not_full {α : Type} {k : ℕ} (r : LockFreeRingBuffer α (2 ^ k)) (x : α)
    (h : (r.head + 1) % 2 ^ k ≠ r.tail) :
    r.push x = (true, ⟨(r.head + 1) % 2 ^ k, r.tail,
      fun i => if i = r.head then x else r.buffer i⟩) := by
  unfold LockFreeRingBuffer.push
  rw [and_mask_eq_mod, if_neg h]

theorem pop_eq_of_empty {α : Type} {k : ℕ} (r : LockFreeRingBuffer α (2 ^ k))
    (h : r.tail = r.head) : r.pop = none := by
  unfold LockFreeRingBuffer.pop
  rw [if_pos h]

theorem pop_eq_of_nonempty {α : Type} {k : ℕ} (r : LockFreeRingBuffer α (2 ^ k))
    (h : r.tail ≠ r.head) :
    r.pop = some (r.buffer r.tail, ⟨r.head, (r.tail + 1) % 2 ^ k, r.buffer⟩) := by
  unfold LockFreeRingBuffer.pop
  rw [and_mask_eq_mod, if_neg h]

/-- Pushing a list whose length keeps `head` strictly below the capacity from a
ring with `tail = 0` succeeds wholesale and advances `head` by the length. -/
theorem pushAllSucc_advance {α : Type} {k : ℕ} :
    ∀ (xs : List α) (r : LockFreeRingBuffer α (2 ^ k)),
    r.tail = 0 → r.head + xs.length < 2 ^ k →
    ∃ r', pushAllSucc r xs = some r' ∧ r'.head = r.head + xs.length ∧ r'.tail = 0
  | [], r, ht, _ => ⟨r, rfl, by simp, ht⟩
  | x :: xs, r, ht, hlen => by
    have hlt : r.head + 1 < 2 ^ k := by
      have := hlen
      simp only [List.length_cons] at this
      omega
    have hmod : (r.head + 1) % 2 ^ k = r.head + 1 := Nat.mod_eq_of_lt hlt
    have hne : (r.head + 1) % 2 ^ k ≠ r.tail := by
      rw [hmod, ht]; omega
    have hpush := push_eq_of_not_full r x hne
    have hrec := pushAllSucc_advance xs
      ⟨(r.head + 1) % 2 ^ k, r.tail, fun i => if i = r.head then x else r.buffer i⟩
      ht (by
        show (r.head + 1) % 2 ^ k + xs.length < 2 ^ k
        rw [hmod]
        simp only [List.length_cons] at hlen
        omega)
    obtain ⟨r', hrun, hhead, htail⟩ := hrec
    refine ⟨r', ?_, ?_, htail⟩
    · rw [pushAllSucc, hpush]
      exact hrun
    · rw [hhead]
      simp only [hmod, List.length_cons]
      omega

/-- Claim C4. Push fails exactly when `(head+1) mod N = tail`; pop fails exactly
when the ring is empty (`head = tail`); and from a fresh ring, `N−1` unmatched
pushes all succeed while the `N`-th push fails (the sentinel slot bounds the
ring at `N−1` outstanding items). -/
theorem ring_capacity (α : Type) (k : ℕ) :
    (∀ (r : LockFreeRingBuffer α (2 ^ k)) (x : α),
        (r.push x).1 = false ↔ (r.head + 1) % 2 ^ k = r.tail) ∧
    (∀ r : LockFreeRingBuffer α (2 ^ k), r.pop = none ↔ r.head = r.tail) ∧
    (∀ (b : ℕ → α) (xs : List α) (y : α), xs.length = 2 ^ k - 1 →
        ∃ r', pushAllSucc (mkRing (2 ^ k) b) xs = some r' ∧ (r'.push y).1 = false) := by
  refine ⟨fun r x => ?_, fun r => ?_, fun b xs y hlen => ?_⟩
  · constructor
    · intro hf
      by_contra hne
      rw [push_eq_of_not_full r x hne] at hf
      exact Bool.true_eq_false.mp hf
    · intro h
      rw [push_eq_of_full r x h]
  · constructor
    · intro hf
      by_contra hne
      rw [pop_eq_of_nonempty r (fun he => hne he.symm)] at hf
      exact Option.some_ne_none _ hf
    · intro h
      exact pop_eq_of_empty r h.symm
  · have hpos : 0 < 2 ^ k := Nat.pos_pow_of_pos k (by norm_num)
    obtain ⟨r', hrun, hhead, htail⟩ :=
      pushAllSucc_advance xs (mkRing (2 ^ k) b) rfl
        (by show 0 + xs.length < 2 ^ k; omega)
    refine ⟨r', hrun, ?_⟩
    have hh : r'.head = 2 ^ k - 1 := by
      rw [hhead]; simp [mkRing, hlen]
    have hfull : (r'.head + 1) % 2 ^ k = r'.tail := by
      rw [hh, htail, show 2 ^ k - 1 + 1 = 2 ^ k by omega, Nat.mod_self]
    rw [push_eq_of_full r' y hfull]

/-- Witness for `ring_capacity`, capacity 8: seven pushes into a fresh ring
succeed and the eighth fails. -/
theorem ring_capacity_witness :
    ∃ r', pushAllSucc (mkRing (2 ^ 3) (fun _ => 0)) [1, 2, 3, 4, 5, 6, 7] = some r' ∧
      (r'.push 9).1 = false :=
  (ring_capacity ℕ 3).2.2 (fun _ => 0) [1, 2, 3, 4, 5, 6, 7] 9 (by decide)

theorem ringInv_init {α : Type} {k : ℕ} (b : ℕ → α) :
    RingInv (initTrace (2 ^ k) b) := by
  refine ⟨le_refl 0, ?_, rfl, rfl, rfl, fun j h1 h2 => ?_⟩
  · simpa using Nat.pos_pow_of_pos k (by norm_num)
  · simp [initTrace] at h2

theorem ringInv_step {α : Type} {k : ℕ} (t : RingTrace α (2 ^ k)) (op : RingOp α)
    (hinv : RingInv t) : RingInv (stepOp t op) := by
  obtain ⟨hQP, hout, hhead, htail, hpre, hbuf⟩ := hinv
  have hpos : 0 < 2 ^ k := Nat.pos_pow_of_pos k (by norm_num)
  cases op with
  | push x =>
    by_cases hfull : (t.ring.head + 1) % 2 ^ k = t.ring.tail
    · simp only [stepOp, push_eq_of_full t.ring x hfull]
      exact ⟨hQP, hout, hhead, htail, hpre, hbuf⟩
    · have hsucc : ((t.pushed.length + 1) % 2 ^ k) ≠ t.popped.length % 2 ^ k := by
        intro he
        apply hfull
        rw [hhead, htail, ← he]
        exact (Nat.ModEq.add_right 1 (Nat.mod_modEq t.pushed.length (2 ^ k)))
      simp only [stepOp, push_eq_of_not_full t.ring x hfull]
      have hlt : t.pushed.length + 1 - t.popped.length < 2 ^ k := by
        by_contra hge
        apply hsucc
        have heq : t.pushed.length + 1 = t.popped.length + 2 ^ k := by omega
        rw [heq, Nat.add_mod_right]
      refine ⟨by simp; omega, by simp; omega, ?_, ?_, ?_, ?_⟩
      · show (t.ring.head + 1) % 2 ^ k = (t.pushed ++ [x]).length % 2 ^ k
        rw [hhead, List.length_append]
        simp [Nat.ModEq.add_right 1 (Nat.mod_modEq t.pushed.length (2 ^ k))]
      · show t.ring.tail = t.popped.length % 2 ^ k
        exact htail
      · show t.popped = (t.pushed ++ [x]).take t.popped.length
        rw [List.take_append_of_le_length hQP]
        exact hpre
      · intro j hj1 hj2
        replace hj1 : t.popped.length ≤ j := hj1
        replace hj2 : j < t.pushed.length + 1 := by
          simp only [List.length_append, List.length_cons, List.length_nil] at hj2
          omega
        show some ((if j % 2 ^ k = t.ring.head then x else t.ring.buffer (j % 2 ^ k)))
          = (t.pushed ++ [x])[j]?
        rcases Nat.lt_or_ge j t.pushed.length with hjlt | hjge
        · have hne : j % 2 ^ k ≠ t.ring.head := by
            rw [hhead]
            intro he
            have hmod : j ≡ t.pushed.length [MOD 2 ^ k] := he
            have hdvd : 2 ^ k ∣ t.pushed.length - j :=
              (Nat.modEq_iff_dvd' hjlt.le).mp hmod
            have h0 : 0 < t.pushed.length - j := by omega
            have := Nat.le_of_dvd h0 hdvd
            omega
          rw [if_neg hne, List.getElem?_append_left hjlt]
          exact hbuf j hj1 hjlt
        · have hje : j = t.pushed.length := by omega
          subst hje
          rw [if_pos (by rw [hhead]), List.getElem?_concat_length]
  | pop =>
    by_cases hempty : t.ring.tail = t.ring.head
    · simp only [stepOp, pop_eq_of_empty t.ring hempty]
      exact ⟨hQP, hout, hhead, htail, hpre, hbuf⟩
    · simp only [stepOp, pop_eq_of_nonempty t.ring hempty]
      have hQltP : t.popped.length < t.pushed.length := by
        rcases Nat.lt_or_ge t.popped.length t.pushed.length with h | h
        · exact h
        · exfalso
          apply hempty
          rw [htail, hhead]
          have : t.popped.length = t.pushed.length := by omega
          rw [this]
      have hget : some (t.ring.buffer (t.popped.length % 2 ^ k))
          = t.pushed[t.popped.length]? :=
        hbuf t.popped.length (le_refl _) hQltP
      refine ⟨?_, ?_, ?_, ?_, ?_, ?_⟩
      · simp; omega
      · simp; omega
      · show t.ring.head = t.pushed.length % 2 ^ k
        exact hhead
      · show (t.ring.tail + 1) % 2 ^ k = (t.popped ++ [t.ring.buffer t.ring.tail]).length % 2 ^ k
        rw [htail, List.length_append]
        simp [Nat.ModEq.add_right 1 (Nat.mod_modEq t.popped.length (2 ^ k))]
      · show t.popped ++ [t.ring.buffer t.ring.tail]
          = t.pushed.take (t.popped ++ [t.ring.buffer t.ring.tail]).length
        have hlen : (t.popped ++ [t.ring.buffer t.ring.tail]).length
            = t.popped.length + 1 := by simp
        rw [hlen, List.take_succ, ← hpre, htail, ← hget]
        rfl
      · intro j hj1 hj2
        replace hj1 : t.popped.length + 1 ≤ j := by
          simp only [List.length_append, List.length_cons, List.length_nil] at hj1
          omega
        replace hj2 : j < t.pushed.length := hj2
        exact hbuf j (by omega) hj2

theorem ringInv_run {α : Type} {k : ℕ} (ops : List (RingOp α)) :
    ∀ t : RingTrace α (2 ^ k), RingInv t → RingInv (runOps t ops) := by
  induction ops with
  | nil => intro t h; exact h
  | cons op ops ih =>
    intro t h
    exact ih (stepOp t op) (ringInv_step t op h)

/-- Claim C5. For any interleaving of pushes and pops run against a fresh ring,
the popped history is a prefix of the pushed history: FIFO order with no loss
and no duplication. -/
theorem ring_fifo (α : Type) (k : ℕ) (b : ℕ → α) (ops : List (RingOp α)) :
    ∃ rest, (runOps (initTrace (2 ^ k) b) ops).popped ++ rest
      = (runOps (initTrace (2 ^ k) b) ops).pushed := by
  have hinv := ringInv_run ops (initTrace (2 ^ k) b) (ringInv_init b)
  obtain ⟨-, -, -, -, hpre, -⟩ := hinv
  refine ⟨(runOps (initTrace (2 ^ k) b) ops).pushed.drop
    (runOps (initTrace (2 ^ k) b) ops).popped.length, ?_⟩
  calc (runOps (initTrace (2 ^ k) b) ops).popped ++ _
      = (runOps (initTrace (2 ^ k) b) ops).pushed.take
          (runOps (initTrace (2 ^ k) b) ops).popped.length ++ _ := by rw [← hpre]
    _ = (runOps (initTrace (2 ^ k) b) ops).pushed := List.take_append_drop _ _

/-! ## Amount parser theorems (C3, C10) -/

theorem isDigitChar_toNat (c : Char) (h : isDigitChar c = true) :
    48 ≤ c.toNat ∧ c.toNat ≤ 57 := by
  unfold isDigitChar at h
  rw [Bool.and_eq_true] at h
  simp only [decide_eq_true_eq] at h
  exact ⟨h.1, h.2⟩

theorem digit_ne_minus (c : Char) (h : isDigitChar c = true) : c ≠ '-' := by
  intro he
  subst he
  exact absurd h (by decide)

theorem digit_ne_dot (c : Char) (h : isDigitChar c = true) : c ≠ '.' := by
  intro he
  subst he
  exact absurd h (by decide)

theorem digitVal_bounds (c : Char) (h : isDigitChar c = true) :
    0 ≤ digitVal c ∧ digitVal c ≤ 9 := by
  obtain ⟨h1, h2⟩ := isDigitChar_toNat c h
  unfold digitVal
  have h0 : Char.toNat '0' = 48 := rfl
  constructor
  · exact Int.natCast_nonneg _
  · rw [h0]; omega

theorem foldl_digits_eq (ds : List Char) (acc : ℤ) :
    ds.foldl (fun a c => a * 10 + digitVal c) acc = acc * 10 ^ ds.length + digitsVal ds := by
  induction ds generalizing acc with
  | nil => simp [digitsVal]
  | cons c cs ih =>
    rw [List.foldl_cons, ih (acc * 10 + digitVal c)]
    have h2 : digitsVal (c :: cs) = digitVal c * 10 ^ cs.length + digitsVal cs := by
      show List.foldl (fun a x => a * 10 + digitVal x) 0 (c :: cs) = _
      rw [List.foldl_cons, show (0 : ℤ) * 10 + digitVal c = digitVal c by ring,
        ih (digitVal c)]
    rw [h2, List.length_cons]
    ring

theorem digitsVal_cons (c : Char) (cs : List Char) :
    digitsVal (c :: cs) = digitVal c * 10 ^ cs.length + digitsVal cs := by
  show List.foldl (fun a x => a * 10 + digitVal x) 0 (c :: cs) = _
  rw [List.foldl_cons, show (0 : ℤ) * 10 + digitVal c = digitVal c by ring,
    foldl_digits_eq]

theorem digitsVal_nonneg (ds : List Char) : 0 ≤ digitsVal ds := by
  induction ds with
  | nil => simp [digitsVal]
  | cons c cs ih =>
    rw [digitsVal_cons]
    have hc : (0 : ℤ) ≤ digitVal c := Int.natCast_nonneg _
    have hp : (0 : ℤ) < 10 ^ cs.length := by positivity
    nlinarith

theorem digitsVal_lt (ds : List Char) (h : ∀ c ∈ ds, isDigitChar c = true) :
    digitsVal ds < 10 ^ ds.length := by
  induction ds with
  | nil => simp [digitsVal]
  | cons c cs ih =>
    rw [digitsVal_cons, List.length_cons]
    have hc : digitVal c ≤ 9 := (digitVal_bounds c (h c (by simp))).2
    have hcs : digitsVal cs < 10 ^ cs.length := ih (fun x hx => h x (by simp [hx]))
    have hp : (0 : ℤ) < 10 ^ cs.length := by positivity
    have : (10 : ℤ) ^ (cs.length + 1) = 10 * 10 ^ cs.length := by ring
    nlinarith

theorem parseIntegrals_spec (ds : List Char) (rest : List Char) (acc : ℤ)
    (hds : ∀ c ∈ ds, isDigitChar c = true)
    (hrest : ∀ c ∈ rest.head?, isDigitChar c = false) :
    parseIntegrals (ds ++ rest) acc
      = (ds.foldl (fun a c => a * 10 + digitVal c) acc, rest) := by
  induction ds generalizing acc with
  | nil =>
    simp only [List.nil_append, List.foldl_nil]
    cases rest with
    | nil => rfl
    | cons r rs =>
      have hr : isDigitChar r = false := hrest r (by simp)
      simp [parseIntegrals, hr]
  | cons c cs ih =>
    have hc : isDigitChar c = true := hds c (by simp)
    simp only [List.cons_append, parseIntegrals, hc, if_true, List.foldl_cons]
    exact ih _ (fun x hx => hds x (by simp [hx]))

theorem parseFractionals_spec (f junk : List Char) (acc : ℤ) (n : ℕ)
    (hf : ∀ c ∈ f, isDigitChar c = true)
    (hlen : n + f.length ≤ 6)
    (hjunk : n + f.length = 6 ∨ ∀ c ∈ junk.head?, isDigitChar c = false) :
    parseFractionals (f ++ junk) acc n
      = (f.foldl (fun a c => a * 10 + digitVal c) acc, n + f.length) := by
  induction f generalizing acc n with
  | nil =>
    simp only [List.nil_append, List.foldl_nil, List.length_nil, Nat.add_zero]
    cases junk with
    | nil => rfl
    | cons j js =>
      unfold parseFractionals
      rcases hjunk with h6 | hnd
      · have hcond : ¬(isDigitChar j = true ∧ n < 6) := by
          rintro ⟨-, hlt⟩
          simp only [List.length_nil, Nat.add_zero] at h6
          omega
        rw [if_neg hcond]
      · have hj : isDigitChar j = false := hnd j (by simp)
        have hcond : ¬(isDigitChar j = true ∧ n < 6) := by
          rintro ⟨hd, -⟩
          rw [hj] at hd
          exact Bool.false_ne_true hd
        rw [if_neg hcond]
  | cons c cs ih =>
    have hc : isDigitChar c = true := hf c (by simp)
    have hlt : n < 6 := by
      simp only [List.length_cons] at hlen
      omega
    simp only [List.cons_append, parseFractionals]
    rw [if_pos ⟨hc, hlt⟩, List.foldl_cons]
    have hres := ih (acc * 10 + digitVal c) (n + 1) (fun x hx => hf x (by simp [hx]))
      (by simp only [List.length_cons] at hlen; omega)
      (by
        rcases hjunk with h6 | hj
        · left
          simp only [List.length_cons] at h6
          omega
        · exact Or.inr hj)
    rw [show cs.append junk = cs ++ junk from rfl, hres]
    have harith : n + 1 + cs.length = n + (c :: cs).length := by
      simp only [List.length_cons]
      omega
    rw [harith]

/-- The amount parser on `⟨digits⟩ '.' ⟨≤ 6 digits⟩ ⟨junk⟩`: the sign is `+`,
the integral digits feed the integral accumulator, the fractional digits (all
of them when the junk is not itself a digit continuation) feed the fractional
accumulator, padded to micros; the junk is never looked at again. -/
theorem amtParse_dotted (i f junk : List Char)
    (hi : ∀ c ∈ i, isDigitChar c = true) (hf : ∀ c ∈ f, isDigitChar c = true)
    (hlen : f.length ≤ 6)
    (hjunk : f.length = 6 ∨ ∀ c ∈ junk.head?, isDigitChar c = false) :
    amtParse (i ++ '.' :: (f ++ junk))
      = digitsVal i * 1000000 + digitsVal f * 10 ^ (6 - f.length) := by
  have hsign : (i ++ '.' :: (f ++ junk)).head? ≠ some '-' := by
    cases i with
    | nil =>
      simp
    | cons c cs =>
      simp only [List.cons_append, List.head?_cons, ne_eq, Option.some.injEq]
      exact digit_ne_minus c (hi c (by simp))
  have hint := parseIntegrals_spec i ('.' :: (f ++ junk)) 0 hi
    (by intro x hx; simp only [List.head?_cons, Option.mem_def, Option.some.injEq] at hx;
        subst hx; decide)
  have hfrac := parseFractionals_spec f junk 0 0 hf (by omega) (by
    rcases hjunk with h6 | hj
    · exact Or.inl (by omega)
    · exact Or.inr hj)
  unfold amtParse
  rw [if_neg hsign]
  show 1 * ((parseIntegrals (i ++ '.' :: (f ++ junk)) 0).1 * 1000000 +
    (if (parseIntegrals (i ++ '.' :: (f ++ junk)) 0).2.head? = some '.' then
      padTo6 (parseFractionals (parseIntegrals (i ++ '.' :: (f ++ junk)) 0).2.tail 0 0).1
        (parseFractionals (parseIntegrals (i ++ '.' :: (f ++ junk)) 0).2.tail 0 0).2
    else 0)) = _
  rw [hint]
  simp only [List.head?_cons, List.tail_cons, if_pos rfl]
  rw [hfrac]
  show 1 * (digitsVal i * 1000000 + padTo6 (digitsVal f) (0 + f.length)) = _
  rw [padTo6, Nat.zero_add]
  ring

/-- The amount parser on `⟨digits⟩ ⟨junk⟩` with no decimal point: only the
digit prefix is read; the fractional part is zero. -/
theorem amtParse_integer (i junk : List Char) (hne : i ≠ [])
    (hi : ∀ c ∈ i, isDigitChar c = true)
    (hjunk : ∀ c ∈ junk.head?, isDigitChar c = false ∧ c ≠ '.') :
    amtParse (i ++ junk) = digitsVal i * 1000000 := by
  have hsign : (i ++ junk).head? ≠ some '-' := by
    cases i with
    | nil => exact absurd rfl hne
    | cons c cs =>
      simp only [List.cons_append, List.head?_cons, ne_eq, Option.some.injEq]
      exact digit_ne_minus c (hi c (by simp))
  have hint := parseIntegrals_spec i junk 0 hi (fun x hx => (hjunk x hx).1)
  have hdot : junk.head? ≠ some '.' := by
    cases junk with
    | nil => simp
    | cons j js =>
      simp only [List.head?_cons, ne_eq, Option.some.injEq]
      exact (hjunk j (by simp)).2
  unfold amtParse
  rw [if_neg hsign]
  show 1 * ((parseIntegrals (i ++ junk) 0).1 * 1000000 +
    (if (parseIntegrals (i ++ junk) 0).2.head? = some '.' then
      padTo6 (parseFractionals (parseIntegrals (i ++ junk) 0).2.tail 0 0).1
        (parseFractionals (parseIntegrals (i ++ junk) 0).2.tail 0 0).2
    else 0)) = _
  rw [hint]
  show 1 * (digitsVal i * 1000000 + (if junk.head? = some '.' then _ else 0)) = _
  rw [if_neg hdot]
  ring

/-- The alert format applied to `A·10⁶ + B` with `0 ≤ A` and `0 ≤ B < 10⁶`
denotes exactly `A + B/10⁶`. -/
theorem alertMagnitude_eq (A B : ℤ) (hA : 0 ≤ A) (hB0 : 0 ≤ B) (hB : B < 1000000) :
    alertMagnitude (A * 1000000 + B) = (A : ℚ) + (B : ℚ) / 1000000 := by
  have hm0 : (0 : ℤ) ≤ A * 1000000 + B := by nlinarith
  unfold alertMagnitude
  rw [Int.tdiv_eq_ediv hm0 (by norm_num), Int.tmod_eq_emod hm0 (by norm_num)]
  have hdiv : (A * 1000000 + B) / 1000000 = A := by
    rw [add_comm, mul_comm, Int.add_mul_ediv_left B A (by norm_num : (1000000 : ℤ) ≠ 0),
      Int.ediv_eq_zero_of_lt hB0 hB, zero_add]
  have hmod : (A * 1000000 + B) % 1000000 = B := by
    rw [add_comm, mul_comm, Int.add_mul_emod_self_left, Int.emod_eq_of_lt hB0 hB]
  rw [hdiv, hmod]
  congr 1
  rw [Int.cast_natAbs, abs_of_nonneg hB0]

/-- Claim C3. Decoding a decimal string with at most six fractional digits and
positive magnitude below `2⁶³/10⁶` through the amount parser and re-formatting
the micros value through the alert format reproduces the original magnitude
exactly — both for `i.f` strings and for plain integer strings. -/
theorem amount_roundtrip (i f : List Char)
    (hi : ∀ c ∈ i, isDigitChar c = true) (hf : ∀ c ∈ f, isDigitChar c = true)
    (hlen : f.length ≤ 6)
    (_hpos : 0 < decVal i f) (_hbound : decVal i f < 2 ^ 63 / 10 ^ 6) :
    amtParse (i ++ '.' :: f)
        = digitsVal i * 1000000 + digitsVal f * 10 ^ (6 - f.length) ∧
    alertMagnitude (amtParse (i ++ '.' :: f)) = decVal i f ∧
    (i ≠ [] → alertMagnitude (amtParse i) = decVal i []) := by
  have hparse : amtParse (i ++ '.' :: f)
      = digitsVal i * 1000000 + digitsVal f * 10 ^ (6 - f.length) := by
    have := amtParse_dotted i f [] hi hf hlen (Or.inr (by simp))
    rwa [List.append_nil] at this
  have hBlt : digitsVal f * 10 ^ (6 - f.length) < 1000000 := by
    have h1 : digitsVal f < 10 ^ f.length := digitsVal_lt f hf
    have h2 : (10 : ℤ) ^ f.length * 10 ^ (6 - f.length) = 10 ^ 6 := by
      rw [← pow_add]
      congr 1
      omega
    have hp : (0 : ℤ) < 10 ^ (6 - f.length) := by positivity
    calc digitsVal f * 10 ^ (6 - f.length)
        < 10 ^ f.length * 10 ^ (6 - f.length) := by
          exact mul_lt_mul_of_pos_right h1 hp
      _ = 1000000 := by rw [h2]; norm_num
  have hB0 : (0 : ℤ) ≤ digitsVal f * 10 ^ (6 - f.length) := by
    have := digitsVal_nonneg f
    positivity
  have hmag : alertMagnitude (amtParse (i ++ '.' :: f)) = decVal i f := by
    rw [hparse, alertMagnitude_eq _ _ (digitsVal_nonneg i) hB0 hBlt]
    unfold decVal
    congr 1
    have h2 : ((10 : ℚ) ^ f.length) * 10 ^ (6 - f.length) = 1000000 := by
      rw [← pow_add, show f.length + (6 - f.length) = 6 by omega]
      norm_num
    have hpl : ((10 : ℚ) ^ f.length) ≠ 0 := by positivity
    push_cast
    rw [← h2]
    field_simp
    ring
  refine ⟨hparse, hmag, fun hne => ?_⟩
  have hparse2 : amtParse i = digitsVal i * 1000000 := by
    have := amtParse_integer i [] hne hi (by simp)
    rwa [List.append_nil] at this
  rw [hparse2]
  have := alertMagnitude_eq (digitsVal i) 0 (digitsVal_nonneg i) (le_refl 0) (by norm_num)
  rw [add_zero] at this
  rw [this]
  unfold decVal
  simp [digitsVal]

/-- Witness for `amount_roundtrip` on the string "1500.00": 1 500 000 000
micros format back to magnitude 1500. -/
theorem amount_roundtrip_witness :
    alertMagnitude (amtParse ("1500".data ++ '.' :: "00".data))
      = decVal "1500".data "00".data :=
  (amount_roundtrip "1500".data "00".data
    (by decide) (by decide) (by decide)
    (by
      rw [decVal, show digitsVal "1500".data = 1500 from by decide,
        show digitsVal "00".data = 0 from by decide]
      norm_num)
    (by
      rw [decVal, show digitsVal "1500".data = 1500 from by decide,
        show digitsVal "00".data = 0 from by decide]
      norm_num)).2.1

/-- Claim C10. The amount parser consumes only the numeric prefix: any non-digit
trailing garbage after the fractional digits (or anything at all once six
fractional digits were read), and any non-digit non-dot garbage after a plain
integer amount, leaves the parsed value unchanged — the decoder never rejects
an amount for trailing garbage, and "12.34abc" decodes like "12.34" to
12 340 000 micros, making the whole document decode succeed. -/
theorem amount_trailing_garbage :
    (∀ i f junk : List Char, (∀ c ∈ i, isDigitChar c = true) →
      (∀ c ∈ f, isDigitChar c = true) → f.length ≤ 6 →
      (f.length = 6 ∨ ∀ c ∈ junk.head?, isDigitChar c = false) →
      amtParse (i ++ '.' :: (f ++ junk)) = amtParse (i ++ '.' :: f)) ∧
    (∀ i junk : List Char, i ≠ [] → (∀ c ∈ i, isDigitChar c = true) →
      (∀ c ∈ junk.head?, isDigitChar c = false ∧ c ≠ '.') →
      amtParse (i ++ junk) = amtParse i) ∧
    amtParse "12.34abc".data = 12340000 ∧
    IsoParser.parse (some exDocGarbage) pd0
      = (true, ⟨"Alice".data, "Bob".data, "EUR".data, "U-1".data, 12340000, true⟩) := by
  refine ⟨fun i f junk hi hf hlen hjunk => ?_, fun i junk hne hi hjunk => ?_, ?_, ?_⟩
  · rw [amtParse_dotted i f junk hi hf hlen hjunk]
    have := amtParse_dotted i f [] hi hf hlen (Or.inr (by simp))
    rw [List.append_nil] at this
    rw [this]
  · rw [amtParse_integer i junk hne hi hjunk]
    have := amtParse_integer i [] hne hi (by simp)
    rw [List.append_nil] at this
    rw [this]
  · decide
  · decide

/-! ## Decoder theorems (C6, C9) -/

theorem amtParse_nil : amtParse [] = 0 := rfl

theorem specCcyOk_length (ccy : List Char) (h : specCcyOk ccy = true) :
    ccy.length = 3 := by
  unfold specCcyOk at h
  simp only [Bool.or_eq_true, beq_iff_eq] at h
  rcases h with (h | h) | h <;> subst h <;> decide

/-- The three failure conjuncts of the decoder, established together: the
`bool` result is `false` exactly on the claim's error condition; on success the
schema-valid flag is set; on failure the flag is whatever the caller passed
in.  One case analysis over the traversal serves C6 and C9. -/
theorem parse_cases (doc : Option XNode) (out : PaymentData) :
    ((IsoParser.parse doc out).1 = false ↔ specDecodeFail doc = true) ∧
    ((IsoParser.parse doc out).1 = true → (IsoParser.parse doc out).2.valid_schema = true) ∧
    ((IsoParser.parse doc out).1 = false →
      (IsoParser.parse doc out).2.valid_schema = out.valid_schema) := by
  cases doc with
  | none =>
    exact ⟨by simp [IsoParser.parse, specDecodeFail], by simp [IsoParser.parse],
      fun _ => by simp [IsoParser.parse]⟩
  | some d =>
    rcases hroot : rootNode d with - | root
    · simp [IsoParser.parse, specDecodeFail, specTxn, hroot]
    · rcases hcct : cctNode root with - | cct
      · simp [IsoParser.parse, specDecodeFail, specTxn, hroot, hcct]
      · rcases htxn : txnNode cct with - | txn
        · simp [IsoParser.parse, specDecodeFail, specTxn, hroot, hcct, htxn]
        · rcases hpmt : txn.child "PmtId" with - | pmtId
          · simp [IsoParser.parse, specDecodeFail, specTxn, hroot, hcct, htxn, hpmt]
          · rcases huetr : uetrNodeOf pmtId with - | uetrNode
            · simp [IsoParser.parse, specDecodeFail, specTxn, hroot, hcct, htxn,
                hpmt, huetr]
            · rcases hdb : (txn.child "Dbtr").bind (fun n => n.child "Nm") with - | dbtrNm
              · rcases hcd : (txn.child "Cdtr").bind (fun n => n.child "Nm") with - | cdtrNm
                · simp [IsoParser.parse, specDecodeFail, specTxn, hroot, hcct, htxn,
                    hpmt, huetr, hdb, hcd]
                · simp [IsoParser.parse, specDecodeFail, specTxn, hroot, hcct, htxn,
                    hpmt, huetr, hdb, hcd]
              · rcases hcd : (txn.child "Cdtr").bind (fun n => n.child "Nm") with - | cdtrNm
                · simp [IsoParser.parse, specDecodeFail, specTxn, hroot, hcct, htxn,
                    hpmt, huetr, hdb, hcd]
                · rcases hamt : (txn.child "Amt").bind (fun n => n.child "InstdAmt")
                      with - | amtNode
                  · simp [IsoParser.parse, specDecodeFail, specTxn, hroot, hcct, htxn,
                      hpmt, huetr, hdb, hcd, hamt]
                  · by_cases hccylen : (amtNode.attr "Ccy").length ≠ 3
                    · have hok : specCcyOk (amtNode.attr "Ccy") = false := by
                        cases hcase : specCcyOk (amtNode.attr "Ccy") with
                        | false => rfl
                        | true => exact absurd (specCcyOk_length _ hcase) hccylen
                      simp [IsoParser.parse, specDecodeFail, specTxn, hroot, hcct, htxn,
                        hpmt, huetr, hdb, hcd, hamt, hccylen, hok]
                    · cases hok : specCcyOk (amtNode.attr "Ccy") with
                      | false =>
                        have hwl : (amtNode.attr "Ccy") ≠ "EUR".data ∧
                            (amtNode.attr "Ccy") ≠ "USD".data ∧
                            (amtNode.attr "Ccy") ≠ "GBP".data := by
                          unfold specCcyOk at hok
                          simp only [Bool.or_eq_false_iff, beq_eq_false_iff_ne] at hok
                          exact ⟨hok.1.1, hok.1.2, hok.2⟩
                        simp [IsoParser.parse, specDecodeFail, specTxn, hroot, hcct,
                          htxn, hpmt, huetr, hdb, hcd, hamt, hccylen, hwl, hok]
                      | true =>
                        have hnotwl : ¬((amtNode.attr "Ccy") ≠ "EUR".data ∧
                            (amtNode.attr "Ccy") ≠ "USD".data ∧
                            (amtNode.attr "Ccy") ≠ "GBP".data) := by
                          unfold specCcyOk at hok
                          simp only [Bool.or_eq_true, beq_iff_eq] at hok
                          rintro ⟨n1, n2, n3⟩
                          rcases hok with (h | h) | h
                          exacts [n1 h, n2 h, n3 h]
                        by_cases hempty : amtNode.text = []
                        · simp [IsoParser.parse, specDecodeFail, specTxn, hroot, hcct,
                            htxn, hpmt, huetr, hdb, hcd, hamt, hccylen, hnotwl, hok,
                            hempty, amtParse_nil]
                        · by_cases hneg : amtParse amtNode.text ≤ 0
                          · simp [IsoParser.parse, specDecodeFail, specTxn, hroot, hcct,
                              htxn, hpmt, huetr, hdb, hcd, hamt, hccylen, hnotwl, hok,
                              hempty, hneg]
                          · simp [IsoParser.parse, specDecodeFail, specTxn, hroot, hcct,
                              htxn, hpmt, huetr, hdb, hcd, hamt, hccylen, hnotwl, hok,
                              hempty, hneg]

/-- Claim C6. Decode fails exactly when the XML is malformed, a required field of
the traversal (root path, PmtId with UETR-or-EndToEndId, Dbtr/Nm, Cdtr/Nm,
Amt/InstdAmt) is missing, the `Ccy` attribute is not exactly the 3 bytes of a
whitelisted currency, or the parsed amount is `≤ 0`; on every other input it
succeeds and the returned record is schema-valid. -/
theorem decode_error_iff (doc : Option XNode) (out : PaymentData) :
    ((IsoParser.parse doc out).1 = false ↔ specDecodeFail doc = true) ∧
    ((IsoParser.parse doc out).1 = true → (IsoParser.parse doc out).2.valid_schema = true) :=
  ⟨(parse_cases doc out).1, (parse_cases doc out).2.1⟩

/-- Witness for `decode_error_iff`: the unit tests' valid 1500.00 EUR pacs.008
decodes successfully into a schema-valid record. -/
theorem decode_error_iff_witness :
    (IsoParser.parse (some exDocValid) pd0).2.valid_schema = true :=
  (decode_error_iff (some exDocValid) pd0).2 (by decide)

/-- Claim C9. The schema-valid flag is set exactly on the success path; on
failure the caller-provided record keeps its original flag (never cleared),
yet fields written before the failing check may remain modified: a document
with a UETR but no debtor fails while leaving the UETR in the record. -/
theorem decode_partial_writes (doc : Option XNode) (out : PaymentData) :
    ((IsoParser.parse doc out).1 = true → (IsoParser.parse doc out).2.valid_schema = true) ∧
    ((IsoParser.parse doc out).1 = false →
      (IsoParser.parse doc out).2.valid_schema = out.valid_schema) ∧
    ((IsoParser.parse (some exDocNoDbtr) pd0).1 = false ∧
      (IsoParser.parse (some exDocNoDbtr) pd0).2.uetr ≠ pd0.uetr) := by
  refine ⟨(parse_cases doc out).2.1, (parse_cases doc out).2.2, ?_, ?_⟩
  · decide
  · decide

/-- Witness for `decode_partial_writes`: after the failed decode of the
debtor-less document the record's schema flag still reads `false`. -/
theorem decode_partial_writes_witness :
    (IsoParser.parse (some exDocNoDbtr) pd0).2.valid_schema = false :=
  ((decode_partial_writes (some exDocNoDbtr) pd0).2.1 (by decide)).trans rfl

/-! ## Alert emission theorems (C2) -/

/-- The formatted alert line always contains at least the JSON skeleton. -/
theorem alertLine_length_pos (debtor : List Char) (amount : ℤ) (uetr : List Char) :
    0 < (alertLine debtor amount uetr).length := by
  unfold alertLine
  simp only [List.length_append, List.length_cons, List.length_nil]
  omega

/-- Claim C2 (amended). For a scored payment with `score > 0.5`: when the
formatted alert line reaches the 512-byte record capacity the alert is dropped
*without* touching the drops counter (the counter is not incremented on
formatting overflow); the drops counter is incremented exactly on a failing
ring₂ push of a fitting line. -/
theorem alert_overflow_drop_policy (score : ℚ) (debtor uetr : List Char) (amount : ℤ)
    (ring : LockFreeRingBuffer (List Char) 4096) (drops : ℕ)
    (hs : score > 1/2) :
    (512 ≤ (alertLine debtor amount uetr).length →
      alertStep score debtor amount uetr ring drops = (ring, drops)) ∧
    ((alertLine debtor amount uetr).length < 512 →
      (ring.push (alertLine debtor amount uetr)).1 = false →
      alertStep score debtor amount uetr ring drops = (ring, drops + 1)) := by
  constructor
  · intro hlen
    unfold alertStep
    rw [if_pos hs, if_neg (by rintro ⟨-, h2⟩; omega)]
  · intro hlen hfull
    unfold alertStep
    rw [if_pos hs, if_pos ⟨alertLine_length_pos debtor amount uetr, hlen⟩]
    rcases hp : ring.push (alertLine debtor amount uetr) with ⟨b, r'⟩
    have hb : b = false := by rw [hp] at hfull; exact hfull
    subst hb
    simp [hp]

set_option maxRecDepth 10000 in
/-- Witness for `alert_overflow_drop_policy`: a 600-byte debtor name overflows
the record; the alert is skipped and the drops counter is left at 0. -/
theorem alert_overflow_drop_policy_witness :
    alertStep 1 longDebtor 1 [] emptyIpcRing 0 = (emptyIpcRing, 0) :=
  (alert_overflow_drop_policy 1 longDebtor [] 1 emptyIpcRing 0 (by norm_num)).1
    (by decide)

set_option maxRecDepth 10000 in
/-- Claim C2 (counterexample). On a blocked-score payment whose debtor name makes
the line exceed 512 bytes, the worker drops the alert but the drops counter
stays 0 — the claim's "the drops counter is incremented" is false, and the
counter therefore does not count formatting-overflow drops. -/
theorem alert_overflow_drops_counterexample :
    512 ≤ (alertLine longDebtor 1 []).length ∧
    (alertStep 1 longDebtor 1 [] emptyIpcRing 0).2 = 0 ∧
    (alertStep 1 longDebtor 1 [] emptyIpcRing 0).1.head = emptyIpcRing.head := by
  have hlen : 512 ≤ (alertLine longDebtor 1 []).length := by decide
  have hstep : alertStep 1 longDebtor 1 [] emptyIpcRing 0 = (emptyIpcRing, 0) := by
    unfold alertStep
    rw [if_pos (by norm_num : (1 : ℚ) > 1/2)]
    rw [if_neg (by rintro ⟨-, h2⟩; omega)]
  exact ⟨hlen, by rw [hstep], by rw [hstep]⟩

end Aegis
